import Mathlib

/-
Verification of the column-layout core of `src/app/page.tsx` (wp-4col).

The embedded code is the pair of state transitions on the four-column board:

* the reconciliation effect (`useEffect` body, `page.tsx` lines 268-314),
  here `reconcile`, which prunes stale posts and greedily places new ones;
* the drag-end handler (`handleDragEnd`, `page.tsx` lines 325-412),
  here `applyMove`, which re-homes a dragged post.

JavaScript arrays become `List`, `Set` membership becomes `List.contains`,
`Array.prototype.findIndex` (which returns `-1` on failure) becomes the
`Option`-valued `findIndex`, `splice` removal becomes `List.eraseIdx`,
`splice` insertion becomes `List.insertIdx`, and `push` becomes an append.
Out-of-bounds array reads, which would throw in JavaScript, are modelled by
explicitly dead fallback branches returning the input unchanged; the bounds
lemmas below show those branches are unreachable for every layout with at
least one column.
-/

namespace WpFourCol

/-- A fetched post. The core logic only ever inspects `id` (through
`getPostId`); all presentation fields of the TypeScript record (`link`,
`title`, `excerpt`, `date`, `_embedded`) are abstracted into `payload`, so
two posts sharing an `id` can still be distinguished as records. -/
structure WordPressPost where
  id : Nat
  payload : Nat
deriving DecidableEq, Repr

/-- One board column, `type PostColumn = { id, label, posts }`. -/
structure PostColumn where
  id : String
  label : String
  posts : List WordPressPost
deriving DecidableEq, Repr

/-- Constant `COLUMN_COUNT = 4` from `page.tsx`. -/
def COLUMN_COUNT : Nat := 4

/-- Function `getPostId = (post) => post.id.toString()`. -/
def getPostId (post : WordPressPost) : String := toString post.id

/-- Function `createEmptyColumns` from `page.tsx`: four empty columns with
identities `column-0` .. `column-3`. -/
def createEmptyColumns : List PostColumn :=
  (List.range COLUMN_COUNT).map fun index =>
    { id := "column-" ++ toString index
      label := "Column " ++ toString (index + 1)
      posts := [] }

/-- Set `incomingIds = new Set(data.map(getPostId))` of the reconciliation
effect, modelled as the list of identifiers (membership is what is used). -/
def incomingIds (data : List WordPressPost) : List String :=
  data.map getPostId

/-- Step `filtered = prevColumns.map(column => { ...column, posts:
column.posts.filter(p => incomingIds.has(getPostId(p))) })`: stale removal. -/
def filteredLayout (prevColumns : List PostColumn) (data : List WordPressPost) :
    List PostColumn :=
  prevColumns.map fun column =>
    { column with
      posts := column.posts.filter fun post =>
        (incomingIds data).contains (getPostId post) }

/-- Set `existingIds` of the reconciliation effect: every identifier placed in
the stale-filtered layout. -/
def existingIds (prevColumns : List PostColumn) (data : List WordPressPost) :
    List String :=
  ((filteredLayout prevColumns data).map fun column =>
    column.posts.map getPostId).flatten

/-- Step `newPosts = data.filter(post => !existingIds.has(getPostId(post)))`. -/
def newPosts (prevColumns : List PostColumn) (data : List WordPressPost) :
    List WordPressPost :=
  data.filter fun post =>
    !((existingIds prevColumns data).contains (getPostId post))

/-- Length of the posts array read by the reduce accumulator,
`nextColumns[minIndex].posts.length`; out-of-range reads default to `0`
(they never happen on a nonempty layout, see `targetIndex_spec`). -/
def minLenAt (cols : List PostColumn) (i : Nat) : Nat :=
  (cols[i]?.map fun c => c.posts.length).getD 0

/-- The body of `nextColumns.reduce((minIndex, column, idx) => ..., 0)`:
walk the columns with their indices, keeping the index of the first column
whose posts array is strictly shorter than the current minimum. -/
def reduceMinIndex (cols : List PostColumn) :
    List PostColumn → Nat → Nat → Nat
  | [], _, minIndex => minIndex
  | column :: rest, idx, minIndex =>
    reduceMinIndex cols rest (idx + 1)
      (if column.posts.length < minLenAt cols minIndex then idx else minIndex)

/-- The `targetIndex` computed for each new post: index of the first column
currently holding the fewest posts. -/
def targetIndex (cols : List PostColumn) : Nat :=
  reduceMinIndex cols cols 0 0

/-- One iteration of `newPosts.forEach(post => { ...; nextColumns[targetIndex]
.posts.push(post); })`. The `none` branch models the out-of-bounds read, which
is impossible for a nonempty layout (`targetIndex_lt`). -/
def placeOne (cols : List PostColumn) (post : WordPressPost) : List PostColumn :=
  match cols[targetIndex cols]? with
  | some column =>
    cols.set (targetIndex cols) { column with posts := column.posts ++ [post] }
  | none => cols

/-- The whole reconciliation state update (`setColumns` callback of the
`useEffect` on `data`, `page.tsx` lines 273-313): prune stale posts, compute
the genuinely new posts, return the pruned layout if there are none, otherwise
place each new post into the currently smallest column. -/
def reconcile (prevColumns : List PostColumn) (data : List WordPressPost) :
    List PostColumn :=
  if (newPosts prevColumns data).isEmpty then filteredLayout prevColumns data
  else (newPosts prevColumns data).foldl placeOne (filteredLayout prevColumns data)

/-- JavaScript `Array.prototype.findIndex`, with `-1` rendered as `none`. -/
def findIndex (pred : α → Bool) : List α → Option Nat
  | [] => none
  | x :: xs => if pred x then some 0 else (findIndex pred xs).map (· + 1)

/-- Predicate of the source-column search: the column holds the dragged post,
`column.posts.some(post => getPostId(post) === activeId)`. -/
def hasPost (theId : String) (column : PostColumn) : Bool :=
  column.posts.any fun post => getPostId post == theId

/-- Predicate of the target-column search: the drop id is the column identity
or the identifier of a post placed in the column. -/
def isTarget (overId : String) (column : PostColumn) : Bool :=
  column.id == overId || hasPost overId column

/-- The drag-end state update (`setColumns` callback of `handleDragEnd`,
`page.tsx` lines 333-411). Every guard of the source is kept: unresolved
source column, unresolved target column, self-drop in the same column, and
the two defensive checks after the removal. -/
def applyMove (prevColumns : List PostColumn) (activeId overId : String) :
    List PostColumn :=
  match findIndex (hasPost activeId) prevColumns with
  | none => prevColumns
  | some sourceColumnIndex =>
    match findIndex (isTarget overId) prevColumns with
    | none => prevColumns
    | some targetColumnIndex =>
      if sourceColumnIndex = targetColumnIndex ∧ overId = activeId then
        prevColumns
      else
        match prevColumns[sourceColumnIndex]?, prevColumns[targetColumnIndex]? with
        | some sourceColumn, some targetColumn =>
          match findIndex (fun post => getPostId post == activeId) sourceColumn.posts with
          | none => prevColumns
          | some movingIndex =>
            match sourceColumn.posts[movingIndex]? with
            | none => prevColumns
            | some movingPost =>
              let sourceRemoved := sourceColumn.posts.eraseIdx movingIndex
              if sourceColumnIndex = targetColumnIndex then
                let insertIndex :=
                  (findIndex (fun post => getPostId post == overId) sourceRemoved).getD
                    sourceRemoved.length
                prevColumns.set sourceColumnIndex
                  { sourceColumn with
                    posts := sourceRemoved.insertIdx insertIndex movingPost }
              else
                let base := prevColumns.set sourceColumnIndex
                  { sourceColumn with posts := sourceRemoved }
                if targetColumn.id == overId then
                  base.set targetColumnIndex
                    { targetColumn with posts := targetColumn.posts ++ [movingPost] }
                else
                  let insertIndex :=
                    (findIndex (fun post => getPostId post == overId) targetColumn.posts).getD
                      targetColumn.posts.length
                  base.set targetColumnIndex
                    { targetColumn with
                      posts := targetColumn.posts.insertIdx insertIndex movingPost }
        | _, _ => prevColumns

/-- All posts placed on the board, in column order. -/
def allPosts (cols : List PostColumn) : List WordPressPost :=
  (cols.map fun column => column.posts).flatten

/-- All placed identifiers, in column order. -/
def allIds (cols : List PostColumn) : List String :=
  (cols.map fun column => column.posts.map getPostId).flatten

/-- A post with the given numeric id and payload, for concrete scenarios. -/
def mkPost (theId payload : Nat) : WordPressPost :=
  { id := theId, payload := payload }

/-- Concrete board of the move-correctness scenario: posts 1,2 in the first
column and post 3 in the second. -/
def moveScenario : List PostColumn :=
  [ { id := "column-0", label := "Column 1", posts := [mkPost 1 0, mkPost 2 0] }
  , { id := "column-1", label := "Column 2", posts := [mkPost 3 0] }
  , { id := "column-2", label := "Column 3", posts := [] }
  , { id := "column-3", label := "Column 4", posts := [] } ]

/-- Concrete board of the missing-target scenario: post 1 alone. -/
def noopScenario : List PostColumn :=
  [ { id := "column-0", label := "Column 1", posts := [mkPost 1 0] }
  , { id := "column-1", label := "Column 2", posts := [] }
  , { id := "column-2", label := "Column 3", posts := [] }
  , { id := "column-3", label := "Column 4", posts := [] } ]

/-! ### Generic list lemmas -/

theorem findIndex_cons {α} (pred : α → Bool) (a : α) (t : List α) :
    findIndex pred (a :: t) =
      if pred a = true then some 0 else (findIndex pred t).map (· + 1) := rfl

theorem findIndex_eq_none_iff {α} {pred : α → Bool} {l : List α} :
    findIndex pred l = none ↔ ∀ x ∈ l, pred x = false := by
  induction l with
  | nil => simp [findIndex]
  | cons a t ih =>
    rw [findIndex_cons]
    by_cases h : pred a = true
    · simp [h]
    · simp only [Bool.not_eq_true] at h
      simp [h, ih]

theorem findIndex_eq_some_getElem {α} {pred : α → Bool} {l : List α} {i : Nat}
    (h : findIndex pred l = some i) :
    ∃ x, l[i]? = some x ∧ pred x = true := by
  induction l generalizing i with
  | nil => simp [findIndex] at h
  | cons a t ih =>
    rw [findIndex_cons] at h
    by_cases ha : pred a = true
    · rw [if_pos ha] at h
      injection h with h0
      subst h0
      exact ⟨a, by simp, ha⟩
    · rw [if_neg ha, Option.map_eq_some'] at h
      obtain ⟨j, hj, rfl⟩ := h
      obtain ⟨x, hx, hpx⟩ := ih hj
      exact ⟨x, by simpa using hx, hpx⟩

theorem findIndex_lt_length {α} {pred : α → Bool} {l : List α} {i : Nat}
    (h : findIndex pred l = some i) : i < l.length := by
  obtain ⟨x, hx, -⟩ := findIndex_eq_some_getElem h
  exact (List.getElem?_eq_some_iff.mp hx).1

theorem findIndex_isSome_of_any {α} {pred : α → Bool} {l : List α}
    (h : l.any pred = true) : ∃ i, findIndex pred l = some i := by
  rcases hf : findIndex pred l with _ | i
  · obtain ⟨x, hx, hpx⟩ := List.any_eq_true.mp h
    have := findIndex_eq_none_iff.mp hf x hx
    rw [this] at hpx
    cases hpx
  · exact ⟨i, rfl⟩

theorem perm_insertIdx {α} (x : α) :
    ∀ (n : Nat) (l : List α), n ≤ l.length → (List.insertIdx n x l).Perm (x :: l)
  | 0, l, _ => by simp [List.insertIdx_zero]
  | n + 1, [], h => by simp at h
  | n + 1, a :: t, h => by
    rw [List.insertIdx_succ_cons]
    exact ((perm_insertIdx x n t (Nat.le_of_succ_le_succ h)).cons a).trans
      (List.Perm.swap x a t)

theorem perm_eraseIdx {α} {x : α} :
    ∀ {l : List α} {n : Nat}, l[n]? = some x → l.Perm (x :: l.eraseIdx n)
  | [], n, h => by simp at h
  | a :: t, 0, h => by
    simp only [List.getElem?_cons_zero, Option.some.injEq] at h
    subst h
    simp [List.eraseIdx_cons_zero]
  | a :: t, n + 1, h => by
    simp only [List.getElem?_cons_succ] at h
    rw [List.eraseIdx_cons_succ]
    exact ((perm_eraseIdx h).cons a).trans (List.Perm.swap x a _)

theorem perm_append_cancel_right {α} [DecidableEq α] {l₁ l₂ l : List α}
    (h : (l₁ ++ l).Perm (l₂ ++ l)) : l₁.Perm l₂ := by
  rw [List.perm_iff_count] at h ⊢
  intro a
  have := h a
  simp only [List.count_append] at this
  omega

theorem flatten_set_perm {α} :
    ∀ (l : List (List α)) (i : Nat) (a b : List α), l[i]? = some a →
      ((l.set i b).flatten ++ a).Perm (l.flatten ++ b)
  | [], i, a, b, h => by simp at h
  | c :: t, 0, a, b, h => by
    simp only [List.getElem?_cons_zero, Option.some.injEq] at h
    subst h
    simp only [List.set_cons_zero, List.flatten_cons, List.append_assoc]
    refine List.Perm.trans List.perm_append_comm ?_
    rw [List.append_assoc]
    refine List.Perm.trans List.perm_append_comm ?_
    rw [List.append_assoc]
    exact List.Perm.append_left _ List.perm_append_comm
  | c :: t, i + 1, a, b, h => by
    simp only [List.getElem?_cons_succ] at h
    simp only [List.set_cons_succ, List.flatten_cons, List.append_assoc]
    exact (flatten_set_perm t i a b h).append_left c

theorem set_getElem?_self {α} :
    ∀ {l : List α} {i : Nat} {a : α}, l[i]? = some a → l.set i a = l
  | [], i, a, h => by simp at h
  | c :: t, 0, a, h => by
    simp only [List.getElem?_cons_zero, Option.some.injEq] at h
    simp [h]
  | c :: t, i + 1, a, h => by
    simp only [List.getElem?_cons_succ] at h
    simp [set_getElem?_self h]

/-! ### The balance heuristic -/

theorem reduceMinIndex_spec (cols : List PostColumn) (rest : List PostColumn) :
    ∀ (idx minIndex : Nat), cols.drop idx = rest →
      minIndex < cols.length →
      (∀ j, j < idx → minLenAt cols minIndex ≤ minLenAt cols j) →
      (∀ j, j < minIndex → minLenAt cols minIndex < minLenAt cols j) →
      reduceMinIndex cols rest idx minIndex < cols.length ∧
      (∀ j, j < cols.length →
        minLenAt cols (reduceMinIndex cols rest idx minIndex) ≤ minLenAt cols j) ∧
      (∀ j, j < reduceMinIndex cols rest idx minIndex →
        minLenAt cols (reduceMinIndex cols rest idx minIndex) < minLenAt cols j) := by
  induction rest with
  | nil =>
    intro idx minIndex hdrop hlt hmin hfirst
    have hlen : cols.length ≤ idx := by
      have := congrArg List.length hdrop
      simp only [List.length_drop, List.length_nil] at this
      omega
    refine ⟨hlt, ?_, hfirst⟩
    intro j hj
    exact hmin j (by omega)
  | cons c rest ih =>
    intro idx minIndex hdrop hlt hmin hfirst
    have hlens := congrArg List.length hdrop
    simp only [List.length_drop, List.length_cons] at hlens
    have hidxlen : idx < cols.length := by omega
    have hc : cols[idx]? = some c := by
      have h0 : (cols.drop idx)[0]? = some c := by rw [hdrop]; simp
      rw [List.getElem?_drop] at h0
      simpa using h0
    have hlenc : minLenAt cols idx = c.posts.length := by
      simp [minLenAt, hc]
    have hdrop' : cols.drop (idx + 1) = rest := by
      have h1 : (cols.drop idx).drop 1 = rest := by rw [hdrop]; simp
      rwa [List.drop_drop] at h1
    simp only [reduceMinIndex]
    by_cases hif : c.posts.length < minLenAt cols minIndex
    · rw [if_pos hif]
      refine ih (idx + 1) idx hdrop' hidxlen ?_ ?_
      · intro j hj
        rcases Nat.lt_succ_iff_lt_or_eq.mp hj with hj' | rfl
        · exact hlenc ▸ le_of_lt (lt_of_lt_of_le hif (hmin j hj'))
        · exact le_refl _
      · intro j hj
        exact lt_of_lt_of_le (hlenc ▸ hif) (hmin j hj)
    · rw [if_neg hif]
      refine ih (idx + 1) minIndex hdrop' hlt ?_ hfirst
      intro j hj
      rcases Nat.lt_succ_iff_lt_or_eq.mp hj with hj' | rfl
      · exact hmin j hj'
      · exact hlenc ▸ Nat.le_of_not_lt hif

/-- The balance heuristic is a least argmin: on a nonempty layout the chosen
index is in range, its column is no longer than any other, and every earlier
column is strictly longer (ties break to the lowest index). -/
theorem targetIndex_spec (cols : List PostColumn) (h : cols ≠ []) :
    targetIndex cols < cols.length ∧
    (∀ j, j < cols.length → minLenAt cols (targetIndex cols) ≤ minLenAt cols j) ∧
    (∀ j, j < targetIndex cols → minLenAt cols (targetIndex cols) < minLenAt cols j) := by
  have h0 : 0 < cols.length := List.length_pos.mpr h
  exact reduceMinIndex_spec cols cols 0 0 rfl h0
    (fun j hj => absurd hj (Nat.not_lt_zero j))
    (fun j hj => absurd hj (Nat.not_lt_zero j))

theorem targetIndex_lt (cols : List PostColumn) (h : cols ≠ []) :
    targetIndex cols < cols.length :=
  (targetIndex_spec cols h).1

/-! ### Placement -/

theorem placeOne_nil (post : WordPressPost) : placeOne [] post = [] := rfl

theorem placeOne_length (cols : List PostColumn) (post : WordPressPost) :
    (placeOne cols post).length = cols.length := by
  unfold placeOne
  cases h : cols[targetIndex cols]? <;> simp

theorem placeOne_map_id (cols : List PostColumn) (post : WordPressPost) :
    (placeOne cols post).map (fun c => c.id) = cols.map (fun c => c.id) := by
  unfold placeOne
  cases h : cols[targetIndex cols]? with
  | none => rfl
  | some c =>
    rw [List.map_set]
    exact set_getElem?_self (by rw [List.getElem?_map, h]; rfl)

theorem placeOne_allPosts_perm (cols : List PostColumn) (post : WordPressPost)
    (h : cols ≠ []) :
    (allPosts (placeOne cols post)).Perm (allPosts cols ++ [post]) := by
  have ht := targetIndex_lt cols h
  have hc : cols[targetIndex cols]? = some cols[targetIndex cols] :=
    List.getElem?_eq_getElem ht
  unfold placeOne
  rw [hc]
  unfold allPosts
  rw [List.map_set]
  have hmc : (cols.map fun c => c.posts)[targetIndex cols]? =
      some (cols[targetIndex cols]).posts := by
    rw [List.getElem?_map, hc]
    rfl
  apply perm_append_cancel_right (l := (cols[targetIndex cols]).posts)
  refine (flatten_set_perm _ _ _ _ hmc).trans ?_
  rw [List.append_assoc]
  exact List.Perm.append_left _ List.perm_append_comm

theorem foldl_placeOne_nil (ps : List WordPressPost) :
    ps.foldl placeOne [] = [] := by
  induction ps with
  | nil => rfl
  | cons p ps ih => simpa [placeOne_nil] using ih

theorem foldl_placeOne_length (ps : List WordPressPost) :
    ∀ cols : List PostColumn, (ps.foldl placeOne cols).length = cols.length := by
  induction ps with
  | nil => intro cols; rfl
  | cons p ps ih =>
    intro cols
    rw [List.foldl_cons, ih, placeOne_length]

theorem foldl_placeOne_map_id (ps : List WordPressPost) :
    ∀ cols : List PostColumn,
      (ps.foldl placeOne cols).map (fun c => c.id) = cols.map (fun c => c.id) := by
  induction ps with
  | nil => intro cols; rfl
  | cons p ps ih =>
    intro cols
    rw [List.foldl_cons, ih, placeOne_map_id]

theorem foldl_placeOne_allPosts_perm (ps : List WordPressPost) :
    ∀ cols : List PostColumn, cols ≠ [] →
      (allPosts (ps.foldl placeOne cols)).Perm (allPosts cols ++ ps) := by
  induction ps with
  | nil => intro cols _; simp
  | cons p ps ih =>
    intro cols hne
    rw [List.foldl_cons]
    have hne' : placeOne cols p ≠ [] := by
      have := placeOne_length cols p
      have h0 : 0 < cols.length := List.length_pos.mpr hne
      exact List.length_pos.mp (by omega)
    refine (ih (placeOne cols p) hne').trans ?_
    refine ((placeOne_allPosts_perm cols p hne).append_right ps).trans ?_
    rw [List.append_assoc]
    rfl

/-! ### Reconciliation lemmas -/

theorem contains_iff {l : List String} {s : String} :
    l.contains s = true ↔ s ∈ l :=
  List.elem_iff

theorem map_eq_self_of {α} {f : α → α} :
    ∀ {l : List α}, (∀ x ∈ l, f x = x) → l.map f = l
  | [], _ => rfl
  | x :: t, h => by
    rw [List.map_cons, h x (List.mem_cons_self x t),
      map_eq_self_of fun y hy => h y (List.mem_cons_of_mem x hy)]

theorem allIds_eq (cols : List PostColumn) :
    allIds cols = (allPosts cols).map getPostId := by
  unfold allIds allPosts
  rw [List.map_flatten, List.map_map]
  rfl

theorem existingIds_eq (prev : List PostColumn) (data : List WordPressPost) :
    existingIds prev data = allIds (filteredLayout prev data) := rfl

theorem filteredLayout_length (prev : List PostColumn) (data : List WordPressPost) :
    (filteredLayout prev data).length = prev.length := by
  simp [filteredLayout]

theorem filteredLayout_map_id (prev : List PostColumn) (data : List WordPressPost) :
    (filteredLayout prev data).map (fun c => c.id) = prev.map (fun c => c.id) := by
  unfold filteredLayout
  rw [List.map_map]
  rfl

theorem reconcile_length (prev : List PostColumn) (data : List WordPressPost) :
    (reconcile prev data).length = prev.length := by
  unfold reconcile
  split
  · exact filteredLayout_length prev data
  · rw [foldl_placeOne_length, filteredLayout_length]

theorem reconcile_map_id (prev : List PostColumn) (data : List WordPressPost) :
    (reconcile prev data).map (fun c => c.id) = prev.map (fun c => c.id) := by
  unfold reconcile
  split
  · exact filteredLayout_map_id prev data
  · rw [foldl_placeOne_map_id, filteredLayout_map_id]

theorem reconcile_nil (data : List WordPressPost) : reconcile [] data = [] := by
  unfold reconcile
  split
  · rfl
  · exact foldl_placeOne_nil _

/-- The multiset content of a reconciled board: exactly the surviving posts
followed by the genuinely new posts. -/
theorem reconcile_allPosts_perm (prev : List PostColumn) (data : List WordPressPost)
    (h : prev ≠ []) :
    (allPosts (reconcile prev data)).Perm
      (allPosts (filteredLayout prev data) ++ newPosts prev data) := by
  unfold reconcile
  by_cases hcase : (newPosts prev data).isEmpty
  · rw [if_pos hcase, List.isEmpty_iff.mp hcase]
    simp
  · rw [if_neg hcase]
    apply foldl_placeOne_allPosts_perm
    have hlen := filteredLayout_length prev data
    have h0 : 0 < prev.length := List.length_pos.mpr h
    exact List.length_pos.mp (by omega)

theorem mem_allPosts_filteredLayout {q : WordPressPost} {prev : List PostColumn}
    {data : List WordPressPost} :
    q ∈ allPosts (filteredLayout prev data) ↔
      q ∈ allPosts prev ∧ (incomingIds data).contains (getPostId q) = true := by
  have hrw : allPosts (filteredLayout prev data) =
      (prev.map fun c =>
        c.posts.filter fun post => (incomingIds data).contains (getPostId post)).flatten := by
    unfold allPosts filteredLayout
    rw [List.map_map]
    rfl
  rw [hrw]
  simp only [allPosts, List.mem_flatten, List.mem_map]
  constructor
  · rintro ⟨l, ⟨c, hc, rfl⟩, hq⟩
    rw [List.mem_filter] at hq
    exact ⟨⟨c.posts, ⟨c, hc, rfl⟩, hq.1⟩, hq.2⟩
  · rintro ⟨⟨l, ⟨c, hc, rfl⟩, hq⟩, hpred⟩
    exact ⟨_, ⟨c, hc, rfl⟩, List.mem_filter.mpr ⟨hq, hpred⟩⟩

theorem mem_newPosts {p : WordPressPost} {prev : List PostColumn}
    {data : List WordPressPost} :
    p ∈ newPosts prev data ↔
      p ∈ data ∧ (existingIds prev data).contains (getPostId p) = false := by
  unfold newPosts
  rw [List.mem_filter, Bool.not_eq_true']

/-- Every post on a reconciled board carries an incoming identifier. -/
theorem reconcile_posts_incoming {q : WordPressPost} {prev : List PostColumn}
    {data : List WordPressPost} (hq : q ∈ allPosts (reconcile prev data)) :
    (incomingIds data).contains (getPostId q) = true := by
  by_cases hnil : prev = []
  · subst hnil
    rw [reconcile_nil] at hq
    simp [allPosts] at hq
  · have hmem := (reconcile_allPosts_perm prev data hnil).mem_iff.mp hq
    rcases List.mem_append.mp hmem with hf | hn
    · exact (mem_allPosts_filteredLayout.mp hf).2
    · have hd : q ∈ data := (mem_newPosts.mp hn).1
      exact contains_iff.mpr (List.mem_map.mpr ⟨q, hd, rfl⟩)

/-- On a board with at least one column, every incoming identifier appears on
the reconciled board. -/
theorem reconcile_covers {p : WordPressPost} {prev : List PostColumn}
    {data : List WordPressPost} (h : prev ≠ []) (hp : p ∈ data) :
    getPostId p ∈ allIds (reconcile prev data) := by
  rw [allIds_eq]
  have hperm := reconcile_allPosts_perm prev data h
  by_cases hex : (existingIds prev data).contains (getPostId p) = true
  · have hid : getPostId p ∈ allIds (filteredLayout prev data) := by
      rw [← existingIds_eq]
      exact contains_iff.mp hex
    rw [allIds_eq] at hid
    obtain ⟨q, hq, hqid⟩ := List.mem_map.mp hid
    exact List.mem_map.mpr
      ⟨q, hperm.mem_iff.mpr (List.mem_append.mpr (Or.inl hq)), hqid⟩
  · have hpn : p ∈ newPosts prev data :=
      mem_newPosts.mpr ⟨hp, Bool.not_eq_true _ ▸ Bool.of_not_eq_true hex⟩
    exact List.mem_map.mpr
      ⟨p, hperm.mem_iff.mpr (List.mem_append.mpr (Or.inr hpn)), rfl⟩

/-- Reconciling twice with the same list is the same as reconciling once. -/
theorem reconcile_reconcile (prev : List PostColumn) (data : List WordPressPost) :
    reconcile (reconcile prev data) data = reconcile prev data := by
  by_cases hnil : prev = []
  · subst hnil
    rw [reconcile_nil, reconcile_nil]
  · have hfilter : filteredLayout (reconcile prev data) data = reconcile prev data := by
      unfold filteredLayout
      apply map_eq_self_of
      intro c hc
      have hposts : c.posts.filter
          (fun post => (incomingIds data).contains (getPostId post)) = c.posts := by
        rw [List.filter_eq_self]
        intro q hq
        exact reconcile_posts_incoming
          (by exact List.mem_flatten.mpr ⟨c.posts, List.mem_map.mpr ⟨c, hc, rfl⟩, hq⟩)
      rw [hposts]
    have hnew : newPosts (reconcile prev data) data = [] := by
      unfold newPosts
      rw [List.filter_eq_nil_iff]
      intro p hp
      rw [Bool.not_eq_true', Bool.not_eq_false]
      apply contains_iff.mpr
      rw [existingIds_eq, hfilter]
      exact reconcile_covers hnil hp
    have hempty : (newPosts (reconcile prev data) data).isEmpty = true := by
      rw [hnew]
      rfl
    conv_lhs => rw [reconcile]
    rw [if_pos hempty, hfilter]

/-! ### Drag-move lemmas -/

theorem allPosts_set_perm_aux (cols : List PostColumn) (i : Nat)
    (col col' : PostColumn) (h : cols[i]? = some col) :
    (allPosts (cols.set i col') ++ col.posts).Perm (allPosts cols ++ col'.posts) := by
  unfold allPosts
  rw [List.map_set]
  exact flatten_set_perm _ _ _ _ (by rw [List.getElem?_map, h]; rfl)

/-- Exhaustive description of `applyMove`: it returns the input unchanged, or
performs a same-column reorder (one column rewritten, removal then insertion
at a valid index), or a cross-column move (source column loses the dragged
post, target column gains it). -/
theorem applyMove_eq_cases (prev : List PostColumn) (a o : String) :
    applyMove prev a o = prev ∨
    (∃ j srcCol m post ins,
      findIndex (hasPost a) prev = some j ∧
      findIndex (isTarget o) prev = some j ∧
      prev[j]? = some srcCol ∧
      srcCol.posts[m]? = some post ∧
      ins ≤ (srcCol.posts.eraseIdx m).length ∧
      applyMove prev a o =
        prev.set j
          { srcCol with posts := (srcCol.posts.eraseIdx m).insertIdx ins post }) ∨
    (∃ j k srcCol tgtCol m post newTgtPosts,
      findIndex (hasPost a) prev = some j ∧
      findIndex (isTarget o) prev = some k ∧
      j ≠ k ∧
      prev[j]? = some srcCol ∧
      prev[k]? = some tgtCol ∧
      srcCol.posts[m]? = some post ∧
      newTgtPosts.Perm (post :: tgtCol.posts) ∧
      applyMove prev a o =
        (prev.set j { srcCol with posts := srcCol.posts.eraseIdx m }).set k
          { tgtCol with posts := newTgtPosts }) := by
  rcases h1 : findIndex (hasPost a) prev with _ | j
  · left
    simp [applyMove, h1]
  rcases h2 : findIndex (isTarget o) prev with _ | k
  · left
    simp [applyMove, h1, h2]
  by_cases hguard : j = k ∧ o = a
  · left
    obtain ⟨rfl, rfl⟩ := hguard
    simp [applyMove, h1, h2]
  rcases h3 : prev[j]? with _ | srcCol
  · left
    simp [applyMove, h1, h2, hguard, h3]
  rcases h4 : prev[k]? with _ | tgtCol
  · left
    simp [applyMove, h1, h2, hguard, h3, h4]
  rcases h5 : findIndex (fun post => getPostId post == a) srcCol.posts with _ | m
  · left
    simp [applyMove, h1, h2, hguard, h3, h4, h5]
  rcases h6 : srcCol.posts[m]? with _ | post
  · left
    simp [applyMove, h1, h2, hguard, h3, h4, h5, h6]
  by_cases hsame : j = k
  · subst hsame
    right; left
    have hins : (findIndex (fun post => getPostId post == o)
        (srcCol.posts.eraseIdx m)).getD (srcCol.posts.eraseIdx m).length ≤
        (srcCol.posts.eraseIdx m).length := by
      rcases hfi : findIndex (fun post => getPostId post == o)
          (srcCol.posts.eraseIdx m) with _ | i
      · simp
      · have := findIndex_lt_length hfi
        simp only [Option.getD_some]
        omega
    have heq : applyMove prev a o = prev.set j
        { srcCol with posts := ((srcCol.posts.eraseIdx m).insertIdx
            ((findIndex (fun post => getPostId post == o)
              (srcCol.posts.eraseIdx m)).getD (srcCol.posts.eraseIdx m).length)
            post) } := by
      have hne : ¬(o = a) := fun hoa => hguard ⟨rfl, hoa⟩
      simp [applyMove, h1, h2, h3, h5, h6, hne]
    exact ⟨j, srcCol, m, post, _, h1 ▸ rfl, h2 ▸ rfl, h3, h6, hins, heq⟩
  · right; right
    by_cases hcid : tgtCol.id == o
    · have heq : applyMove prev a o =
          (prev.set j { srcCol with posts := srcCol.posts.eraseIdx m }).set k
            { tgtCol with posts := tgtCol.posts ++ [post] } := by
        simp [applyMove, h1, h2, hguard, h3, h4, h5, h6, hsame, hcid]
      exact ⟨j, k, srcCol, tgtCol, m, post, tgtCol.posts ++ [post],
        h1 ▸ rfl, h2 ▸ rfl, hsame, h3, h4, h6, List.perm_append_comm, heq⟩
    · have hins : (findIndex (fun post => getPostId post == o) tgtCol.posts).getD
          tgtCol.posts.length ≤ tgtCol.posts.length := by
        rcases hfi : findIndex (fun post => getPostId post == o) tgtCol.posts with _ | i
        · simp
        · have := findIndex_lt_length hfi
          simp only [Option.getD_some]
          omega
      have heq : applyMove prev a o =
          (prev.set j { srcCol with posts := srcCol.posts.eraseIdx m }).set k
            { tgtCol with posts := (tgtCol.posts.insertIdx
                ((findIndex (fun post => getPostId post == o) tgtCol.posts).getD
                  tgtCol.posts.length) post) } := by
        simp [applyMove, h1, h2, hguard, h3, h4, h5, h6, hsame, hcid]
      exact ⟨j, k, srcCol, tgtCol, m, post, _,
        h1 ▸ rfl, h2 ▸ rfl, hsame, h3, h4, h6, perm_insertIdx post _ _ hins, heq⟩

theorem applyMove_length (prev : List PostColumn) (a o : String) :
    (applyMove prev a o).length = prev.length := by
  rcases applyMove_eq_cases prev a o with h
    | ⟨j, srcCol, m, post, ins, _, _, _, _, _, heq⟩
    | ⟨j, k, srcCol, tgtCol, m, post, ntp, _, _, _, _, _, _, _, heq⟩
  · rw [h]
  · rw [heq, List.length_set]
  · rw [heq, List.length_set, List.length_set]

theorem applyMove_map_id (prev : List PostColumn) (a o : String) :
    (applyMove prev a o).map (fun c => c.id) = prev.map (fun c => c.id) := by
  rcases applyMove_eq_cases prev a o with h
    | ⟨j, srcCol, m, post, ins, _, _, h3, _, _, heq⟩
    | ⟨j, k, srcCol, tgtCol, m, post, ntp, _, _, hjk, h3, h4, _, _, heq⟩
  · rw [h]
  · rw [heq, List.map_set]
    exact set_getElem?_self (by rw [List.getElem?_map, h3]; rfl)
  · rw [heq, List.map_set, List.map_set]
    rw [set_getElem?_self (by rw [List.getElem?_set_ne hjk, List.getElem?_map, h4]; rfl)]
    exact set_getElem?_self (by rw [List.getElem?_map, h3]; rfl)

theorem applyMove_getElem?_frame (prev : List PostColumn) (a o : String)
    (i : Nat) (hsrc : findIndex (hasPost a) prev ≠ some i)
    (htgt : findIndex (isTarget o) prev ≠ some i) :
    (applyMove prev a o)[i]? = prev[i]? := by
  rcases applyMove_eq_cases prev a o with h
    | ⟨j, srcCol, m, post, ins, h1, h2, _, _, _, heq⟩
    | ⟨j, k, srcCol, tgtCol, m, post, ntp, h1, h2, _, _, _, _, _, heq⟩
  · rw [h]
  · have hij : j ≠ i := fun hc => hsrc (hc ▸ h1)
    rw [heq, List.getElem?_set_ne hij]
  · have hij : j ≠ i := fun hc => hsrc (hc ▸ h1)
    have hik : k ≠ i := fun hc => htgt (hc ▸ h2)
    rw [heq, List.getElem?_set_ne hik, List.getElem?_set_ne hij]

/-- A drag never loses or duplicates a post: the board content is permuted. -/
theorem applyMove_allPosts_perm (prev : List PostColumn) (a o : String) :
    (allPosts (applyMove prev a o)).Perm (allPosts prev) := by
  rcases applyMove_eq_cases prev a o with h
    | ⟨j, srcCol, m, post, ins, h1, h2, h3, h6, hins, heq⟩
    | ⟨j, k, srcCol, tgtCol, m, post, ntp, h1, h2, hjk, h3, h4, h6, hperm, heq⟩
  · rw [h]
  · rw [heq]
    apply perm_append_cancel_right (l := srcCol.posts)
    refine (allPosts_set_perm_aux prev j srcCol _ h3).trans ?_
    apply List.Perm.append_left
    exact (perm_insertIdx post ins _ hins).trans (perm_eraseIdx h6).symm
  · rw [heq]
    have h4' : (prev.set j { srcCol with posts := srcCol.posts.eraseIdx m })[k]? =
        some tgtCol := by
      rw [List.getElem?_set_ne hjk, h4]
    have step1 : (allPosts
        ((prev.set j { srcCol with posts := srcCol.posts.eraseIdx m }).set k
          { tgtCol with posts := ntp })).Perm
        (allPosts (prev.set j { srcCol with posts := srcCol.posts.eraseIdx m }) ++ [post]) := by
      apply perm_append_cancel_right (l := tgtCol.posts)
      refine (allPosts_set_perm_aux _ k tgtCol _ h4').trans ?_
      refine (List.Perm.append_left _ hperm).trans ?_
      rw [List.append_assoc]
      rfl
    have step2 : (allPosts (prev.set j { srcCol with posts := srcCol.posts.eraseIdx m })
        ++ [post]).Perm (allPosts prev) := by
      apply perm_append_cancel_right (l := srcCol.posts.eraseIdx m)
      have hstep := allPosts_set_perm_aux prev j srcCol
        { srcCol with posts := srcCol.posts.eraseIdx m } h3
      refine List.Perm.trans ?_ hstep
      refine List.Perm.trans ?_ (List.Perm.append_left _ ((perm_eraseIdx h6).symm))
      rw [List.append_assoc]
      refine List.Perm.append_left _ ?_
      exact List.Perm.refl _
    exact step1.trans step2

/-! ### Order preservation machinery -/

/-- The shape of a reconciled column: the surviving posts of the previous
column, in order, followed by a tail of appended posts. -/
def survivorsWithTail (data : List WordPressPost) (column : PostColumn)
    (tail : List WordPressPost) : PostColumn :=
  { column with
    posts := (column.posts.filter fun post =>
      (incomingIds data).contains (getPostId post)) ++ tail }

theorem getElem?_zipWith_eq_some {α β γ} (f : α → β → γ) :
    ∀ (l₁ : List α) (l₂ : List β) (i : Nat) (c : γ),
      (List.zipWith f l₁ l₂)[i]? = some c →
      ∃ a b, l₁[i]? = some a ∧ l₂[i]? = some b ∧ c = f a b
  | [], l₂, i, c, h => by simp at h
  | x :: t₁, [], i, c, h => by simp [List.zipWith_nil_right] at h
  | x :: t₁, y :: t₂, 0, c, h => by
    rw [List.zipWith_cons_cons] at h
    simp only [List.getElem?_cons_zero, Option.some.injEq] at h
    exact ⟨x, y, by simp, by simp, h.symm⟩
  | x :: t₁, y :: t₂, i + 1, c, h => by
    rw [List.zipWith_cons_cons] at h
    simp only [List.getElem?_cons_succ] at h
    obtain ⟨a, b, ha, hb, hc⟩ := getElem?_zipWith_eq_some f t₁ t₂ i c h
    exact ⟨a, b, by simpa using ha, by simpa using hb, hc⟩

theorem zipWith_set_right {α β γ} (f : α → β → γ) :
    ∀ (l₁ : List α) (l₂ : List β) (i : Nat) (c : α) (b : β),
      l₁[i]? = some c →
      List.zipWith f l₁ (l₂.set i b) = (List.zipWith f l₁ l₂).set i (f c b)
  | [], l₂, i, c, b, h => by simp at h
  | x :: t₁, [], i, c, b, h => by simp [List.zipWith_nil_right]
  | x :: t₁, y :: t₂, 0, c, b, h => by
    simp only [List.getElem?_cons_zero, Option.some.injEq] at h
    subst h
    simp [List.set_cons_zero, List.zipWith_cons_cons]
  | x :: t₁, y :: t₂, i + 1, c, b, h => by
    simp only [List.getElem?_cons_succ] at h
    simp only [List.set_cons_succ, List.zipWith_cons_cons, List.cons.injEq, true_and]
    exact zipWith_set_right f t₁ t₂ i c b h

theorem zipWith_replicate_right {α β γ} (f : α → β → γ) (b : β) :
    ∀ l : List α, List.zipWith f l (List.replicate l.length b) = l.map (fun a => f a b)
  | [] => rfl
  | x :: t => by
    simp only [List.length_cons, List.replicate_succ, List.zipWith_cons_cons,
      List.map_cons, List.cons.injEq, true_and]
    exact zipWith_replicate_right f b t

theorem filteredLayout_eq_zipWith (prev : List PostColumn) (data : List WordPressPost) :
    filteredLayout prev data =
      List.zipWith (survivorsWithTail data) prev (List.replicate prev.length []) := by
  rw [zipWith_replicate_right]
  unfold filteredLayout survivorsWithTail
  exact (List.map_congr_left fun c _ => by simp).symm

theorem foldl_placeOne_tails (prev : List PostColumn) (data : List WordPressPost)
    (S : List WordPressPost) :
    ∀ (ps : List WordPressPost) (cols : List PostColumn) (tails : List (List WordPressPost)),
      cols = List.zipWith (survivorsWithTail data) prev tails →
      tails.length = prev.length →
      (∀ tail ∈ tails, ∀ q ∈ tail, q ∈ S) →
      (∀ p ∈ ps, p ∈ S) →
      ∃ tails' : List (List WordPressPost),
        tails'.length = prev.length ∧
        ps.foldl placeOne cols = List.zipWith (survivorsWithTail data) prev tails' ∧
        (∀ tail ∈ tails', ∀ q ∈ tail, q ∈ S) := by
  intro ps
  induction ps with
  | nil =>
    intro cols tails hcols hlen htails _
    exact ⟨tails, hlen, hcols, htails⟩
  | cons p ps ih =>
    intro cols tails hcols hlen htails hps
    rw [List.foldl_cons]
    rcases hset : cols[targetIndex cols]? with _ | col
    · have hplace : placeOne cols p = cols := by
        unfold placeOne
        rw [hset]
      rw [hplace]
      exact ih cols tails hcols hlen htails fun q hq => hps q (List.mem_cons_of_mem p hq)
    · obtain ⟨c, tail, hc, htail, rfl⟩ :=
        getElem?_zipWith_eq_some (survivorsWithTail data) prev tails (targetIndex cols) col
          (hcols ▸ hset)
      have hplace : placeOne cols p =
          List.zipWith (survivorsWithTail data) prev
            (tails.set (targetIndex cols) (tail ++ [p])) := by
        simp only [placeOne, hset]
        rw [zipWith_set_right (survivorsWithTail data) prev tails (targetIndex cols) c
          (tail ++ [p]) hc, ← hcols]
        apply congrArg
        simp [survivorsWithTail, List.append_assoc]
      rw [hplace]
      refine ih _ (tails.set (targetIndex cols) (tail ++ [p])) rfl
        (by rw [List.length_set]; exact hlen) ?_
        (fun q hq => hps q (List.mem_cons_of_mem p hq))
      intro t ht q hq
      rcases List.mem_or_eq_of_mem_set ht with hold | rfl
      · exact htails t hold q hq
      · rcases List.mem_append.mp hq with hq | hq
        · exact htails tail (List.getElem?_mem htail) q hq
        · rw [List.mem_singleton.mp hq]
          exact hps p (List.mem_cons_self p ps)

/-- Structure of every reconciled board: each column is its stale-filtered
predecessor followed by a tail of posts drawn from the new posts. -/
theorem reconcile_tails (prev : List PostColumn) (data : List WordPressPost) :
    ∃ tails : List (List WordPressPost),
      tails.length = prev.length ∧
      reconcile prev data = List.zipWith (survivorsWithTail data) prev tails ∧
      ∀ tail ∈ tails, ∀ post ∈ tail, post ∈ newPosts prev data := by
  unfold reconcile
  by_cases hcase : (newPosts prev data).isEmpty
  · rw [if_pos hcase]
    exact ⟨List.replicate prev.length [], List.length_replicate _ _,
      filteredLayout_eq_zipWith prev data,
      fun tail ht q hq => absurd (List.eq_of_mem_replicate ht ▸ hq) (List.not_mem_nil q)⟩
  · rw [if_neg hcase]
    exact foldl_placeOne_tails prev data (newPosts prev data) (newPosts prev data)
      (filteredLayout prev data) (List.replicate prev.length [])
      (filteredLayout_eq_zipWith prev data) (List.length_replicate _ _)
      (fun tail ht q hq => absurd (List.eq_of_mem_replicate ht ▸ hq) (List.not_mem_nil q))
      (fun p hp => hp)

theorem allIds_filteredLayout_sublist (data : List WordPressPost) :
    ∀ prev : List PostColumn,
      (allIds (filteredLayout prev data)).Sublist (allIds prev)
  | [] => List.Sublist.refl _
  | c :: t => by
    simp only [allIds, filteredLayout, List.map_cons, List.flatten_cons]
    exact List.Sublist.append ((List.filter_sublist c.posts).map getPostId)
      (allIds_filteredLayout_sublist data t)

/-! ### Claims -/

/-- Claim C1, counterexample: the coverage invariant fails as stated for an
incoming list that repeats an identifier. Reconciling the empty four-column
board with two distinct posts both carrying id 5 places both of them, so the
identifier "5" occupies two positions. -/
theorem reconcile_coverage_counterexample :
    ¬ (allIds (reconcile createEmptyColumns [mkPost 5 0, mkPost 5 1])).Nodup := by
  decide

/-- Claim C1 (amended): for a board of the fixed four-column structure whose
placed identifiers are duplicate-free and an incoming list with pairwise
distinct identifiers, the reconciled board's identifiers are exactly the
incoming identifiers, each in exactly one column and position. -/
theorem reconcile_coverage_of_nodup :
    ∀ (prev : List PostColumn) (data : List WordPressPost),
      prev.length = COLUMN_COUNT →
      (allIds prev).Nodup →
      (incomingIds data).Nodup →
      (allIds (reconcile prev data)).Nodup ∧
      ∀ s, s ∈ allIds (reconcile prev data) ↔ s ∈ incomingIds data := by
  intro prev data hl hprev hdata
  have hne : prev ≠ [] := by
    intro h
    rw [h] at hl
    simp [COLUMN_COUNT] at hl
  have hperm : (allIds (reconcile prev data)).Perm
      (allIds (filteredLayout prev data) ++ (newPosts prev data).map getPostId) := by
    rw [allIds_eq, allIds_eq, ← List.map_append]
    exact (reconcile_allPosts_perm prev data hne).map getPostId
  constructor
  · refine hperm.nodup_iff.mpr ?_
    rw [List.nodup_append]
    refine ⟨(allIds_filteredLayout_sublist data prev).nodup hprev,
      ((List.filter_sublist data).map getPostId).nodup hdata, ?_⟩
    intro s hsf hsn
    obtain ⟨pq, hpq, rfl⟩ := List.mem_map.mp hsn
    have hcont := (mem_newPosts.mp hpq).2
    rw [existingIds_eq] at hcont
    exact (Bool.eq_false_iff.mp hcont) (contains_iff.mpr hsf)
  · intro s
    constructor
    · intro hs
      rcases List.mem_append.mp (hperm.mem_iff.mp hs) with hf | hn
      · rw [allIds_eq] at hf
        obtain ⟨q, hq, rfl⟩ := List.mem_map.mp hf
        exact contains_iff.mp (mem_allPosts_filteredLayout.mp hq).2
      · obtain ⟨pq, hpq, rfl⟩ := List.mem_map.mp hn
        exact List.mem_map.mpr ⟨pq, (mem_newPosts.mp hpq).1, rfl⟩
    · intro hs
      obtain ⟨pp, hp, rfl⟩ := List.mem_map.mp hs
      exact reconcile_covers hne hp

/-- Claim C1 witness at a concrete duplicate-free input. -/
theorem reconcile_coverage_of_nodup_witness :
    createEmptyColumns.length = COLUMN_COUNT ∧
    (allIds createEmptyColumns).Nodup ∧
    (incomingIds [mkPost 1 0, mkPost 2 0]).Nodup ∧
    ((allIds (reconcile createEmptyColumns [mkPost 1 0, mkPost 2 0])).Nodup ∧
      ∀ s, s ∈ allIds (reconcile createEmptyColumns [mkPost 1 0, mkPost 2 0]) ↔
        s ∈ incomingIds [mkPost 1 0, mkPost 2 0]) :=
  ⟨by decide, by decide, by decide,
    reconcile_coverage_of_nodup createEmptyColumns [mkPost 1 0, mkPost 2 0]
      (by decide) (by decide) (by decide)⟩

/-- Claim C2: reconciliation only removes stale posts and appends new posts at
column tails. Every reconciled board is, column by column, the stale-filtered
previous column followed by a tail of posts drawn from the new posts; in
particular every survivor keeps its column and its relative order. -/
theorem reconcile_order_preservation :
    ∀ (prev : List PostColumn) (data : List WordPressPost),
      ∃ tails : List (List WordPressPost),
        tails.length = prev.length ∧
        reconcile prev data = List.zipWith (survivorsWithTail data) prev tails ∧
        ∀ tail ∈ tails, ∀ post ∈ tail, post ∈ newPosts prev data :=
  reconcile_tails

/-- Claim C2 witness: the structure theorem instantiated at a concrete board. -/
theorem reconcile_order_preservation_witness :
    ∃ tails : List (List WordPressPost),
      tails.length = moveScenario.length ∧
      reconcile moveScenario [mkPost 2 0, mkPost 9 0] =
        List.zipWith (survivorsWithTail [mkPost 2 0, mkPost 9 0]) moveScenario tails ∧
      ∀ tail ∈ tails, ∀ post ∈ tail,
        post ∈ newPosts moveScenario [mkPost 2 0, mkPost 9 0] :=
  reconcile_order_preservation moveScenario [mkPost 2 0, mkPost 9 0]

/-- Claim C3, counterexample: with a duplicated unplaced identifier in the
incoming list the code does not keep only the first occurrence; both posts
with id 7 are placed, so the board carries "7" twice, not once. -/
theorem reconcile_duplicate_counterexample :
    ¬ ((allIds (reconcile createEmptyColumns [mkPost 7 0, mkPost 7 1])).count "7" = 1) := by
  decide

/-- Claim C3 (amended): the new-post filter consults only the identifiers
placed before this reconciliation, so an incoming pair of posts sharing an
identifier that is not yet on the board is placed twice: the identifier ends
up with exactly two occurrences. -/
theorem reconcile_duplicate_places_both :
    ∀ (prev : List PostColumn) (p q : WordPressPost),
      prev.length = COLUMN_COUNT →
      getPostId q = getPostId p →
      getPostId p ∉ allIds prev →
      (allIds (reconcile prev [p, q])).count (getPostId p) = 2 := by
  intro prev p q hl hqp hnotin
  have hne : prev ≠ [] := by
    intro h
    rw [h] at hl
    simp [COLUMN_COUNT] at hl
  have hfil : ∀ c ∈ filteredLayout prev [p, q], c.posts = [] := by
    intro c hc
    unfold filteredLayout at hc
    obtain ⟨c0, hc0, rfl⟩ := List.mem_map.mp hc
    simp only
    rw [List.filter_eq_nil_iff]
    intro x hx hcont
    have hxin : getPostId x ∈ incomingIds [p, q] := contains_iff.mp hcont
    have hxp : getPostId x = getPostId p := by
      simp only [incomingIds, List.map_cons, List.map_nil, List.mem_cons,
        List.mem_singleton] at hxin
      rcases hxin with h | h | h
      · exact h
      · rw [h, hqp]
      · simp at h
    apply hnotin
    rw [← hxp]
    exact List.mem_flatten.mpr ⟨c0.posts.map getPostId,
      List.mem_map.mpr ⟨c0, hc0, rfl⟩, List.mem_map.mpr ⟨x, hx, rfl⟩⟩
  have hap : allPosts (filteredLayout prev [p, q]) = [] := by
    unfold allPosts
    rw [List.flatten_eq_nil_iff]
    intro l hl2
    obtain ⟨c, hc, rfl⟩ := List.mem_map.mp hl2
    exact hfil c hc
  have hex : existingIds prev [p, q] = [] := by
    rw [existingIds_eq, allIds_eq, hap]
    rfl
  have hnp : newPosts prev [p, q] = [p, q] := by
    unfold newPosts
    rw [hex]
    simp [List.contains]
  have hperm := reconcile_allPosts_perm prev [p, q] hne
  rw [hap, hnp, List.nil_append] at hperm
  rw [allIds_eq]
  rw [(hperm.map getPostId).count_eq (getPostId p)]
  simp [hqp]

/-- Claim C3 witness at a concrete input. -/
theorem reconcile_duplicate_places_both_witness :
    createEmptyColumns.length = COLUMN_COUNT ∧
    getPostId (mkPost 9 1) = getPostId (mkPost 9 0) ∧
    getPostId (mkPost 9 0) ∉ allIds createEmptyColumns ∧
    (allIds (reconcile createEmptyColumns [mkPost 9 0, mkPost 9 1])).count
      (getPostId (mkPost 9 0)) = 2 :=
  ⟨by decide, by decide, by decide,
    reconcile_duplicate_places_both createEmptyColumns (mkPost 9 0) (mkPost 9 1)
      (by decide) (by decide) (by decide)⟩

/-- Claim C5: reconciliation is idempotent on a repeated fetch, and when every
incoming identifier is already placed it returns the stale-filtered board
unchanged. -/
theorem reconcile_idempotent :
    ∀ (prev : List PostColumn) (data : List WordPressPost),
      reconcile (reconcile prev data) data = reconcile prev data ∧
      ((∀ p ∈ data, getPostId p ∈ existingIds prev data) →
        reconcile prev data = filteredLayout prev data) := by
  intro prev data
  refine ⟨reconcile_reconcile prev data, ?_⟩
  intro hall
  have hnew : newPosts prev data = [] := by
    unfold newPosts
    rw [List.filter_eq_nil_iff]
    intro p hp
    rw [Bool.not_eq_true', Bool.not_eq_false]
    exact contains_iff.mpr (hall p hp)
  rw [reconcile, if_pos (by rw [hnew]; rfl)]

/-- Claim C5 witness: a repeat fetch of already-placed posts is a no-op. -/
theorem reconcile_idempotent_witness :
    reconcile (reconcile moveScenario [mkPost 1 0, mkPost 2 0, mkPost 3 0])
        [mkPost 1 0, mkPost 2 0, mkPost 3 0] =
      reconcile moveScenario [mkPost 1 0, mkPost 2 0, mkPost 3 0] ∧
    (∀ p ∈ [mkPost 1 0, mkPost 2 0, mkPost 3 0],
      getPostId p ∈ existingIds moveScenario [mkPost 1 0, mkPost 2 0, mkPost 3 0]) ∧
    reconcile moveScenario [mkPost 1 0, mkPost 2 0, mkPost 3 0] =
      filteredLayout moveScenario [mkPost 1 0, mkPost 2 0, mkPost 3 0] :=
  ⟨(reconcile_idempotent moveScenario [mkPost 1 0, mkPost 2 0, mkPost 3 0]).1,
    by decide,
    (reconcile_idempotent moveScenario [mkPost 1 0, mkPost 2 0, mkPost 3 0]).2
      (by decide)⟩

/-- Claim C4: each new post goes to the column currently holding the fewest
posts, ties broken by lowest index (the chosen index is in range, minimal,
and every earlier column is strictly longer), and reconciling the empty
four-column board with five distinct posts yields the 2-1-1-1 distribution
with the fifth post back in column 0. -/
theorem balance_heuristic :
    (∀ cols : List PostColumn, cols ≠ [] →
      targetIndex cols < cols.length ∧
      (∀ j, j < cols.length → minLenAt cols (targetIndex cols) ≤ minLenAt cols j) ∧
      (∀ j, j < targetIndex cols → minLenAt cols (targetIndex cols) < minLenAt cols j)) ∧
    reconcile createEmptyColumns
        [mkPost 1 0, mkPost 2 0, mkPost 3 0, mkPost 4 0, mkPost 5 0] =
      [ { id := "column-0", label := "Column 1", posts := [mkPost 1 0, mkPost 5 0] }
      , { id := "column-1", label := "Column 2", posts := [mkPost 2 0] }
      , { id := "column-2", label := "Column 3", posts := [mkPost 3 0] }
      , { id := "column-3", label := "Column 4", posts := [mkPost 4 0] } ] :=
  ⟨targetIndex_spec, by decide⟩

/-- Claim C4 witness: the heuristic instantiated on the empty board. -/
theorem balance_heuristic_witness :
    createEmptyColumns ≠ [] ∧ targetIndex createEmptyColumns < createEmptyColumns.length :=
  ⟨by decide, (balance_heuristic.1 createEmptyColumns (by decide)).1⟩

/-- Claim C6: a drop over a post of a different column removes the dragged
post from its source column and inserts it immediately before the drop
target (whose index in the target column is always found in this situation);
concretely, moving post 2 onto post 3 on the board [1 2 | 3 | _ | _] yields the board [1 | 2 3 | _ | _]. -/
theorem applyMove_cross_column_insert :
    (∀ (prev : List PostColumn) (a o : String) (j k : Nat)
        (srcCol tgtCol : PostColumn),
      findIndex (hasPost a) prev = some j →
      findIndex (isTarget o) prev = some k →
      j ≠ k →
      prev[j]? = some srcCol →
      prev[k]? = some tgtCol →
      tgtCol.id ≠ o →
      ∃ m post tIdx,
        findIndex (fun x => getPostId x == a) srcCol.posts = some m ∧
        srcCol.posts[m]? = some post ∧
        getPostId post = a ∧
        findIndex (fun x => getPostId x == o) tgtCol.posts = some tIdx ∧
        applyMove prev a o =
          (prev.set j { srcCol with posts := srcCol.posts.eraseIdx m }).set k
            { tgtCol with posts := tgtCol.posts.insertIdx tIdx post }) ∧
    applyMove moveScenario "2" "3" =
      [ { id := "column-0", label := "Column 1", posts := [mkPost 1 0] }
      , { id := "column-1", label := "Column 2", posts := [mkPost 2 0, mkPost 3 0] }
      , { id := "column-2", label := "Column 3", posts := [] }
      , { id := "column-3", label := "Column 4", posts := [] } ] := by
  constructor
  · intro prev a o j k srcCol tgtCol h1 h2 hjk h3 h4 htid
    obtain ⟨x, hx, hpx⟩ := findIndex_eq_some_getElem h1
    rw [h3, Option.some.injEq] at hx
    subst hx
    obtain ⟨m, hm⟩ := findIndex_isSome_of_any hpx
    obtain ⟨post, hpost, hposta⟩ := findIndex_eq_some_getElem hm
    obtain ⟨y, hy, hpy⟩ := findIndex_eq_some_getElem h2
    rw [h4, Option.some.injEq] at hy
    subst hy
    have hcid : (tgtCol.id == o) = false := by
      rw [beq_eq_false_iff_ne]
      exact htid
    have hhp : hasPost o tgtCol = true := by
      unfold isTarget at hpy
      rw [hcid] at hpy
      simpa using hpy
    obtain ⟨tIdx, ht⟩ := findIndex_isSome_of_any hhp
    refine ⟨m, post, tIdx, hm, hpost, by simpa using hposta, ht, ?_⟩
    have hguard : ¬(j = k ∧ o = a) := fun hand => hjk hand.1
    simp [applyMove, h1, h2, hguard, h3, h4, hm, hpost, hjk, hcid, ht]
  · decide

/-- Claim C6 witness: the cross-column theorem instantiated on the concrete
move scenario (post 2 dropped over post 3). -/
theorem applyMove_cross_column_insert_witness :
    ∃ m post tIdx,
      findIndex (fun x => getPostId x == "2")
        [mkPost 1 0, mkPost 2 0] = some m ∧
      [mkPost 1 0, mkPost 2 0][m]? = some post ∧
      getPostId post = "2" ∧
      findIndex (fun x => getPostId x == "3") [mkPost 3 0] = some tIdx ∧
      applyMove moveScenario "2" "3" =
        (moveScenario.set 0
          { id := "column-0", label := "Column 1", posts := ([mkPost 1 0, mkPost 2 0] : List WordPressPost).eraseIdx m }).set 1
          { id := "column-1", label := "Column 2", posts := ([mkPost 3 0] : List WordPressPost).insertIdx tIdx post } :=
  applyMove_cross_column_insert.1 moveScenario "2" "3" 0 1
    { id := "column-0", label := "Column 1", posts := [mkPost 1 0, mkPost 2 0] }
    { id := "column-1", label := "Column 2", posts := [mkPost 3 0] }
    (by decide) (by decide) (by decide) (by decide) (by decide) (by decide)

/-- Claim C7: the drag-end transition is a strict no-op whenever the dragged
identifier is placed nowhere, the drop id resolves to neither a column
identity nor a placed post, or the resolved target is the dragged post itself
in the same column; concretely, dropping post 1 on an unknown id changes
nothing. -/
theorem applyMove_noop_guards :
    (∀ (prev : List PostColumn) (a o : String),
      (∀ c ∈ prev, ∀ p ∈ c.posts, getPostId p ≠ a) → applyMove prev a o = prev) ∧
    (∀ (prev : List PostColumn) (a o : String),
      (∀ c ∈ prev, c.id ≠ o ∧ ∀ p ∈ c.posts, getPostId p ≠ o) →
        applyMove prev a o = prev) ∧
    (∀ (prev : List PostColumn) (a : String) (j : Nat),
      findIndex (hasPost a) prev = some j →
      findIndex (isTarget a) prev = some j →
      applyMove prev a a = prev) ∧
    applyMove noopScenario "1" "nonexistent" = noopScenario := by
  refine ⟨?_, ?_, ?_, by decide⟩
  · intro prev a o hids
    have hnone : findIndex (hasPost a) prev = none := by
      rw [findIndex_eq_none_iff]
      intro c hc
      rw [Bool.eq_false_iff]
      intro hany
      obtain ⟨p, hp, hpa⟩ := List.any_eq_true.mp hany
      exact hids c hc p hp (by simpa using hpa)
    simp [applyMove, hnone]
  · intro prev a o hids
    have hnone : findIndex (isTarget o) prev = none := by
      rw [findIndex_eq_none_iff]
      intro c hc
      unfold isTarget
      rw [Bool.or_eq_false_iff]
      refine ⟨by rw [beq_eq_false_iff_ne]; exact (hids c hc).1, ?_⟩
      rw [Bool.eq_false_iff]
      intro hany
      obtain ⟨p, hp, hpo⟩ := List.any_eq_true.mp hany
      exact (hids c hc).2 p hp (by simpa using hpo)
    rcases hsrc : findIndex (hasPost a) prev with _ | j
    · simp [applyMove, hsrc]
    · simp [applyMove, hsrc, hnone]
  · intro prev a j h1 h2
    simp [applyMove, h1, h2]

/-- Claim C7 witness: a drag of an unplaced identifier is a no-op. -/
theorem applyMove_noop_guards_witness :
    (∀ c ∈ noopScenario, ∀ p ∈ c.posts, getPostId p ≠ "7") ∧
    applyMove noopScenario "7" "column-1" = noopScenario :=
  ⟨by decide, applyMove_noop_guards.1 noopScenario "7" "column-1" (by decide)⟩

/-- Claim C8: both transitions are total functions of the embedding and, on
any board of the fixed four-column structure, return a board with the same
four columns (same count, same identities, same order) for every item list
and every pair of drag identifiers. -/
theorem transitions_total :
    (∀ (prev : List PostColumn) (data : List WordPressPost) (a o : String),
      prev.length = COLUMN_COUNT →
      (reconcile prev data).length = COLUMN_COUNT ∧
      (applyMove prev a o).length = COLUMN_COUNT ∧
      (reconcile prev data).map (fun c => c.id) = prev.map (fun c => c.id) ∧
      (applyMove prev a o).map (fun c => c.id) = prev.map (fun c => c.id)) ∧
    (∀ cols : List PostColumn, cols ≠ [] →
      (cols[targetIndex cols]?).isSome = true) := by
  constructor
  · intro prev data a o hl
    exact ⟨by rw [reconcile_length, hl], by rw [applyMove_length, hl],
      reconcile_map_id prev data, applyMove_map_id prev a o⟩
  · intro cols hne
    rw [List.getElem?_eq_getElem (targetIndex_lt cols hne)]
    rfl

/-- Claim C8 witness: totality conclusions at a concrete malformed gesture
(stale drag id, empty incoming list). -/
theorem transitions_total_witness :
    moveScenario.length = COLUMN_COUNT ∧
    ((reconcile moveScenario []).length = COLUMN_COUNT ∧
      (applyMove moveScenario "99" "nowhere").length = COLUMN_COUNT ∧
      (reconcile moveScenario []).map (fun c => c.id) =
        moveScenario.map (fun c => c.id) ∧
      (applyMove moveScenario "99" "nowhere").map (fun c => c.id) =
        moveScenario.map (fun c => c.id)) :=
  ⟨by decide, transitions_total.1 moveScenario [] "99" "nowhere" (by decide)⟩

/-- Claim C9: no transition adds, removes or reorders columns, and a move
leaves every column other than the resolved source and target columns with
exactly its previous content. -/
theorem untouched_columns_frame :
    (∀ (prev : List PostColumn) (a o : String),
      (applyMove prev a o).map (fun c => c.id) = prev.map (fun c => c.id)) ∧
    (∀ (prev : List PostColumn) (data : List WordPressPost),
      (reconcile prev data).map (fun c => c.id) = prev.map (fun c => c.id)) ∧
    (∀ (prev : List PostColumn) (a o : String) (i : Nat),
      findIndex (hasPost a) prev ≠ some i →
      findIndex (isTarget o) prev ≠ some i →
      (applyMove prev a o)[i]? = prev[i]?) :=
  ⟨applyMove_map_id, reconcile_map_id, applyMove_getElem?_frame⟩

/-- Claim C9 witness: column 2 is untouched by the concrete cross-column
move. -/
theorem untouched_columns_frame_witness :
    findIndex (hasPost "2") moveScenario ≠ some 2 ∧
    findIndex (isTarget "3") moveScenario ≠ some 2 ∧
    (applyMove moveScenario "2" "3")[2]? = moveScenario[2]? :=
  ⟨by decide, by decide,
    untouched_columns_frame.2.2 moveScenario "2" "3" 2 (by decide) (by decide)⟩

/-- Claim C10: a drag conserves the multiset of placed posts, hence of placed
identifiers, on every code path. -/
theorem applyMove_conserves_posts :
    ∀ (prev : List PostColumn) (a o : String),
      (allPosts (applyMove prev a o)).Perm (allPosts prev) ∧
      (allIds (applyMove prev a o)).Perm (allIds prev) := by
  intro prev a o
  refine ⟨applyMove_allPosts_perm prev a o, ?_⟩
  rw [allIds_eq, allIds_eq]
  exact (applyMove_allPosts_perm prev a o).map getPostId

/-- Claim C10 witness: conservation on the concrete move scenario. -/
theorem applyMove_conserves_posts_witness :
    (allPosts (applyMove moveScenario "2" "3")).Perm (allPosts moveScenario) ∧
    (allIds (applyMove moveScenario "2" "3")).Perm (allIds moveScenario) :=
  applyMove_conserves_posts moveScenario "2" "3"

end WpFourCol
